import Mathlib

/-!
Verification of folly/algorithm/simd/detail/SimdCharPlatform.h.

Shallow embedding conventions:
- A SIMD register (and a logical vector, which shares its representation)
  is the ordered list of its byte lanes, lane 0 first; a byte is a natural
  number below 256, and a canonical logical lane is 0x00 or 0xFF.
- A compact mask (mmask_t) is a natural number; the width `w` of the
  underlying unsigned integer type enters through explicit `% 2 ^ w` and
  `2 ^ w - 1` arithmetic exactly where the C++ performs fixed-width
  operations (casts and `~`).
- A pointer is a function from byte offsets to the byte stored there.
- `SimdCharPlatformCommon` is a template over a backend; its mask-level
  operations are embedded with the backend-determined numbers
  (mask width `w`, bits per element `bpe`, lane count `kC`) as explicit
  arguments, and each concrete platform instantiates them.
-/

/-- Boundary descriptor consumed by the platform (external collaborator
from SimdForEach.h): either ignore_none, or ignore_extrema carrying the
counts of leading and trailing lanes to exclude. -/
inductive Ignore where
  | none : Ignore
  | extrema (first last : Nat) : Ignore

/-- Modelled from the spec: the external bitmask-extraction collaborator
(folly::movemask with uint8_t lanes, whose implementation is not under
src/). Per the spec it encodes the lanes of a logical vector as equal-width
bit groups of a compact integer mask, one group of `bpe` bits per lane,
lane 0 in the lowest group; a lane contributes an all-ones group when it is
set (nonzero; canonically 0xFF) and an all-zeros group otherwise. -/
def movemaskExtraction (bpe : Nat) : List Nat → Nat
  | [] => 0
  | b :: rest => (if b ≠ 0 then 2 ^ bpe - 1 else 0) + 2 ^ bpe * movemaskExtraction bpe rest

/-- Hardware intrinsic model: lanewise compare-equal producing 0xFF on
equal lanes and 0x00 otherwise (_mm_cmpeq_epi8 / _mm256_cmpeq_epi8 /
vceqq_u8). -/
def vcmpeq (a b : List Nat) : List Nat :=
  List.zipWith (fun p q => if p = q then 255 else 0) a b

/-- Hardware intrinsic model: lanewise unsigned minimum
(_mm_min_epu8 / _mm256_min_epu8). -/
def vminu (a b : List Nat) : List Nat :=
  List.zipWith Nat.min a b

/-- Hardware intrinsic model: lanewise unsigned less-or-equal producing
0xFF / 0x00 (vcleq_u8). -/
def vcleu (a b : List Nat) : List Nat :=
  List.zipWith (fun p q => if p ≤ q then 255 else 0) a b

/-- Hardware intrinsic model: lanewise bitwise OR
(_mm_or_si128 / _mm256_or_si256 / vorrq_u8). -/
def vor (a b : List Nat) : List Nat :=
  List.zipWith (fun p q => p ||| q) a b

/-- Hardware intrinsic model: broadcast one byte into all `n` lanes
(_mm_set1_epi8 / _mm256_set1_epi8 / vdupq_n_u8). -/
def broadcast (n x : Nat) : List Nat :=
  List.replicate n x

/-- Hardware intrinsic model: horizontal unsigned maximum over the lanes
(vmaxvq_u8). -/
def vmaxv (a : List Nat) : Nat :=
  a.foldr Nat.max 0

namespace SimdCharSse2PlatformSpecific

def kCardinal : Nat := 16

/-- loadu: read exactly kCardinal bytes starting at the pointer. -/
def loadu (p : Nat → Nat) : List Nat :=
  (List.range 16).map p

/-- unsafeLoadu: bit-identical read to loadu; the source differs only in
the sanitizer-suppression attribute, which has no value-level content. -/
def unsafeLoadu (p : Nat → Nat) : List Nat :=
  (List.range 16).map p

/-- equal: _mm_cmpeq_epi8 against the broadcast comparison byte. -/
def equal (reg : List Nat) (x : Nat) : List Nat :=
  vcmpeq reg (broadcast 16 x)

/-- le_unsigned: no unsigned comparison on x86, so compare the register
for equality with its unsigned minimum against the broadcast byte. -/
def le_unsigned (reg : List Nat) (x : Nat) : List Nat :=
  vcmpeq reg (vminu reg (broadcast 16 x))

def logical_or (x y : List Nat) : List Nat :=
  vor x y

/-- any with ignore_none: folly::movemask of the logical vector, converted
to bool (nonzero test). For this backend the extraction uses one bit per
lane. -/
def any (log : List Nat) : Bool :=
  decide (movemaskExtraction 1 log ≠ 0)

end SimdCharSse2PlatformSpecific

namespace SimdCharAvx2PlatformSpecific

def kCardinal : Nat := 32

def loadu (p : Nat → Nat) : List Nat :=
  (List.range 32).map p

def unsafeLoadu (p : Nat → Nat) : List Nat :=
  (List.range 32).map p

def equal (reg : List Nat) (x : Nat) : List Nat :=
  vcmpeq reg (broadcast 32 x)

def le_unsigned (reg : List Nat) (x : Nat) : List Nat :=
  vcmpeq reg (vminu reg (broadcast 32 x))

def logical_or (x y : List Nat) : List Nat :=
  vor x y

def any (log : List Nat) : Bool :=
  decide (movemaskExtraction 1 log ≠ 0)

end SimdCharAvx2PlatformSpecific

namespace SimdCharAarch64PlatformSpecific

def kCardinal : Nat := 16

def loadu (p : Nat → Nat) : List Nat :=
  (List.range 16).map p

def unsafeLoadu (p : Nat → Nat) : List Nat :=
  (List.range 16).map p

/-- equal: vceqq_u8 against vdupq_n_u8 of the comparison byte. -/
def equal (reg : List Nat) (x : Nat) : List Nat :=
  vcmpeq reg (broadcast 16 x)

/-- le_unsigned: native unsigned comparison vcleq_u8. -/
def le_unsigned (reg : List Nat) (x : Nat) : List Nat :=
  vcleu reg (broadcast 16 x)

def logical_or (x y : List Nat) : List Nat :=
  vor x y

/-- any with ignore_none: vmaxvq_u8 converted to bool. -/
def any (log : List Nat) : Bool :=
  decide (vmaxv log ≠ 0)

end SimdCharAarch64PlatformSpecific

namespace SimdCharPlatformCommon

/-- setLowerNBits: lowest n bits set in an unsigned type of bit width w.
The C++ special-cases a 64-bit type with n = 64 (returning
static_cast of -1, the all-ones value) to avoid the undefined shift by
the full width; otherwise it computes (uint64_t 1 << n) - 1 and casts to
the mask type, embedded here as arithmetic modulo 2 ^ 64 followed by the
truncating cast modulo 2 ^ w. -/
def setLowerNBits (w n : Nat) : Nat :=
  if w = 64 ∧ n = 64 then 2 ^ w - 1
  else ((1 <<< n) % 2 ^ 64 - 1) % 2 ^ w

/-- clear: for ignore_none the mask is returned unchanged; for
ignore_extrema the mask is intersected with the complement of the
low first*bpe bits (clearFirst) and with the low (kC - last)*bpe bits
(clearLast). The C++ complement on the w-bit mask type is embedded as
XOR with the all-ones value 2 ^ w - 1. -/
def clear (w bpe kC : Nat) (mmask : Nat) : Ignore → Nat
  | Ignore.none => mmask
  | Ignore.extrema first last =>
      mmask &&& ((2 ^ w - 1) ^^^ setLowerNBits w (first * bpe))
        &&& setLowerNBits w ((kC - last) * bpe)

/-- movemask: the first component of the bitmask-extraction collaborator
applied to the logical vector (the per-element bit width is the cached
constant kMmaskBitsPerElement, passed here as bpe). -/
def movemask (bpe : Nat) (log : List Nat) : Nat :=
  movemaskExtraction bpe log

/-- any with ignore_extrema: movemask, then clear the boundary lanes,
then convert the remaining mask to bool. -/
def anyExtrema (w bpe kC : Nat) (log : List Nat) (first last : Nat) : Bool :=
  decide (clear w bpe kC (movemask bpe log) (Ignore.extrema first last) ≠ 0)

/-- toArray: memcpy of the register into an ordered byte array; on the
list-of-lanes representation this is the identity. -/
def toArray (x : List Nat) : List Nat := x

end SimdCharPlatformCommon

namespace SimdCharSse2Platform

/-- Modelled from the spec: for the 128-bit SSE2 backend the
bitmask-extraction collaborator (not under src/) reports one mask bit per
lane, and the mask integer type holds at least
kCardinal * kMmaskBitsPerElement = 16 bits; it is embedded as a 32-bit
unsigned type. -/
def kMmaskBitsPerElement : Nat := 1

/-- Modelled from the spec: bit width of this backend's mmask type. -/
def kMmaskBits : Nat := 32

/-- loada: for ignore_none exactly loadu; for ignore_extrema exactly
unsafeLoadu (the boundary lanes will be masked out later, so the
sanitizer-suppressed read is used). -/
def loada (p : Nat → Nat) : Ignore → List Nat
  | Ignore.none => SimdCharSse2PlatformSpecific.loadu p
  | Ignore.extrema _ _ => SimdCharSse2PlatformSpecific.unsafeLoadu p

/-- any with ignore_extrema, instantiated with this backend's constants. -/
def anyExtrema (log : List Nat) (first last : Nat) : Bool :=
  SimdCharPlatformCommon.anyExtrema 32 1 16 log first last

end SimdCharSse2Platform

namespace SimdCharAarch64Platform

/-- Modelled from the spec: for the NEON backend the bitmask-extraction
collaborator (not under src/) reports four mask bits per lane in a 64-bit
mask type, so kCardinal * kMmaskBitsPerElement fills the whole mask. -/
def kMmaskBitsPerElement : Nat := 4

/-- Modelled from the spec: bit width of this backend's mmask type. -/
def kMmaskBits : Nat := 64

def loada (p : Nat → Nat) : Ignore → List Nat
  | Ignore.none => SimdCharAarch64PlatformSpecific.loadu p
  | Ignore.extrema _ _ => SimdCharAarch64PlatformSpecific.unsafeLoadu p

def anyExtrema (log : List Nat) (first last : Nat) : Bool :=
  SimdCharPlatformCommon.anyExtrema 64 4 16 log first last

end SimdCharAarch64Platform

/-- The 16-byte end-to-end scenario buffer "AAAABCAAAAAAAAAA"
(byte values: A = 65, B = 66, C = 67). -/
def scenarioBuf : List Nat :=
  [65, 65, 65, 65, 66, 67, 65, 65, 65, 65, 65, 65, 65, 65, 65, 65]

/-- The scenario buffer viewed as a pointer (offset to byte). -/
def scenarioMem : Nat → Nat := fun i => scenarioBuf.getD i 0

/-- The bpe-bit group of a compact mask that encodes lane i (bits
i*bpe .. i*bpe + bpe - 1 of the mask, shifted down). -/
def bitGroup (bpe m i : Nat) : Nat :=
  (m >>> (i * bpe)) % 2 ^ bpe

/-! Helper lemmas shared by several proofs. -/

lemma zipWith_replicate_of_le (f : Nat → Nat → Nat) :
    ∀ (l : List Nat) (n x : Nat), l.length ≤ n →
      List.zipWith f l (List.replicate n x) = l.map (fun b => f b x) := by
  intro l
  induction l with
  | nil => intro n x _; simp
  | cons b rest ih =>
      intro n x hn
      cases n with
      | zero => simp at hn
      | succ k =>
          simp only [List.replicate_succ, List.zipWith_cons_cons, List.map_cons]
          rw [ih k x (by simpa using hn)]

lemma getD_map_of_lt (f : Nat → Nat) (l : List Nat) (i : Nat) (h : i < l.length) :
    (l.map f).getD i 0 = f (l.getD i 0) := by
  rw [List.getD_eq_getElem _ _ (by simpa using h), List.getD_eq_getElem _ _ h,
    List.getElem_map]

/-- C2: for every mask-type bit width w in {8, 16, 32, 64} and every
n ≤ w, setLowerNBits returns the value with exactly the lowest n bits set,
2 ^ n - 1 (so n = 0 yields 0 and n = w yields all-ones); the full-width
n = 64 case is served by the special branch rather than a shift by 64. -/
theorem setLowerNBits_eq_pow_sub_one (w n : Nat)
    (hw : w = 8 ∨ w = 16 ∨ w = 32 ∨ w = 64) (hn : n ≤ w) :
    SimdCharPlatformCommon.setLowerNBits w n = 2 ^ n - 1 := by
  unfold SimdCharPlatformCommon.setLowerNBits
  by_cases h : w = 64 ∧ n = 64
  · rw [if_pos h, h.1, h.2]
  · rw [if_neg h]
    have hw64 : w ≤ 64 := by omega
    have hn64 : n < 64 := by omega
    have hs : (1 <<< n) = 2 ^ n := by rw [Nat.shiftLeft_eq, one_mul]
    have h0 : 0 < (2 : Nat) ^ n := Nat.pow_pos (by omega)
    have h1 : (2 : Nat) ^ n < 2 ^ 64 := Nat.pow_lt_pow_right (by omega) hn64
    have h2 : (2 : Nat) ^ n ≤ 2 ^ w := Nat.pow_le_pow_right (by omega) hn
    rw [hs, Nat.mod_eq_of_lt h1, Nat.mod_eq_of_lt (by omega)]

/-- C2 witness: the shift-by-full-width special family at w = 32, n = 32,
and the n = 0 case at w = 8. -/
theorem setLowerNBits_eq_pow_sub_one_witness :
    SimdCharPlatformCommon.setLowerNBits 32 32 = 2 ^ 32 - 1
    ∧ SimdCharPlatformCommon.setLowerNBits 8 0 = 2 ^ 0 - 1 :=
  ⟨setLowerNBits_eq_pow_sub_one 32 32 (Or.inr (Or.inr (Or.inl rfl))) (by omega),
   setLowerNBits_eq_pow_sub_one 8 0 (Or.inl rfl) (by omega)⟩

/-- C6: loada with ignore_none is byte-identical to loadu, and loada with
ignore_extrema is byte-identical to unsafeLoadu and to loadu: all three
load entry points read the same kCardinal bytes starting at the pointer. -/
theorem loada_eq_loadu (p : Nat → Nat) (first last : Nat) :
    SimdCharSse2Platform.loada p Ignore.none = SimdCharSse2PlatformSpecific.loadu p
    ∧ SimdCharSse2Platform.loada p (Ignore.extrema first last)
        = SimdCharSse2PlatformSpecific.unsafeLoadu p
    ∧ SimdCharSse2Platform.loada p (Ignore.extrema first last)
        = SimdCharSse2PlatformSpecific.loadu p :=
  ⟨rfl, rfl, rfl⟩

/-- C4: le_unsigned is the unsigned lanewise less-or-equal: lane i is the
all-ones pattern exactly when byte i of the register is ≤ x as an unsigned
value, on both the SSE2 backend (which derives it as equality with the
unsigned minimum against the broadcast byte, lacking a native unsigned
comparison) and the NEON backend (native vcleq_u8); in particular a lane
holding 0xFF compares false against x = 0x01. -/
theorem le_unsigned_correct (reg : List Nat) (x : Nat) (hreg : reg.length = 16) :
    (∀ i, i < 16 → (SimdCharSse2PlatformSpecific.le_unsigned reg x).getD i 0
        = if reg.getD i 0 ≤ x then 255 else 0)
    ∧ (∀ i, i < 16 → (SimdCharAarch64PlatformSpecific.le_unsigned reg x).getD i 0
        = if reg.getD i 0 ≤ x then 255 else 0)
    ∧ SimdCharSse2PlatformSpecific.le_unsigned reg x
        = vcmpeq reg (vminu reg (broadcast 16 x)) := by
  refine ⟨?_, ?_, rfl⟩
  · intro i hi
    unfold SimdCharSse2PlatformSpecific.le_unsigned vcmpeq vminu broadcast
    rw [zipWith_replicate_of_le Nat.min reg 16 x (by omega)]
    have hmap : List.zipWith (fun p q => if p = q then 255 else 0) reg
        (reg.map fun b => Nat.min b x)
        = reg.map (fun b => if b = Nat.min b x then 255 else 0) := by
      clear hreg hi
      induction reg with
      | nil => simp
      | cons b rest ih => simp [ih]
    rw [hmap, getD_map_of_lt _ _ _ (by omega)]
    by_cases hb : reg.getD i 0 ≤ x
    · rw [if_pos hb, if_pos (Nat.min_eq_left hb).symm]
    · rw [if_neg hb, if_neg]
      intro hc
      have hx : Nat.min (reg.getD i 0) x ≤ x := Nat.min_le_right _ _
      omega
  · intro i hi
    unfold SimdCharAarch64PlatformSpecific.le_unsigned vcleu broadcast
    rw [zipWith_replicate_of_le _ reg 16 x (by omega),
      getD_map_of_lt _ _ _ (by omega)]

/-- C4 witness: a register whose lane 0 holds 0xFF compared against
x = 0x01 yields a false lane (unsigned ordering), and a 0x41 lane against
0x42 yields a true lane. -/
theorem le_unsigned_correct_witness :
    (SimdCharSse2PlatformSpecific.le_unsigned
        [255, 65, 0, 0, 0, 0, 0, 0, 0, 0, 0, 0, 0, 0, 0, 0] 1).getD 0 0
      = (if ([255, 65, 0, 0, 0, 0, 0, 0, 0, 0, 0, 0, 0, 0, 0, 0] : List Nat).getD 0 0 ≤ 1
        then 255 else 0)
    ∧ (SimdCharAarch64PlatformSpecific.le_unsigned
        [255, 65, 0, 0, 0, 0, 0, 0, 0, 0, 0, 0, 0, 0, 0, 0] 66).getD 1 0
      = (if ([255, 65, 0, 0, 0, 0, 0, 0, 0, 0, 0, 0, 0, 0, 0, 0] : List Nat).getD 1 0 ≤ 66
        then 255 else 0) :=
  ⟨(le_unsigned_correct [255, 65, 0, 0, 0, 0, 0, 0, 0, 0, 0, 0, 0, 0, 0, 0] 1
      (by decide)).1 0 (by omega),
   (le_unsigned_correct [255, 65, 0, 0, 0, 0, 0, 0, 0, 0, 0, 0, 0, 0, 0, 0] 66
      (by decide)).2.1 1 (by omega)⟩

/-- C5: equal, decoded through toArray, shows lane i as the all-ones byte
0xFF exactly when byte i of the register equals the comparison byte x, and
as 0x00 otherwise, for every lane index below kCardinal. -/
theorem equal_toArray_correct (reg : List Nat) (x : Nat) (hreg : reg.length = 16) :
    ∀ i, i < 16 →
      (SimdCharPlatformCommon.toArray (SimdCharSse2PlatformSpecific.equal reg x)).getD i 0
        = if reg.getD i 0 = x then 255 else 0 := by
  intro i hi
  unfold SimdCharPlatformCommon.toArray SimdCharSse2PlatformSpecific.equal vcmpeq broadcast
  rw [zipWith_replicate_of_le _ reg 16 x (by omega),
    getD_map_of_lt _ _ _ (by omega)]

/-- C5 witness: comparison bytes 0x00 and 0xFF on a register holding both
values. -/
theorem equal_toArray_correct_witness :
    (SimdCharPlatformCommon.toArray (SimdCharSse2PlatformSpecific.equal
        [0, 255, 65, 0, 0, 0, 0, 0, 0, 0, 0, 0, 0, 0, 0, 0] 0)).getD 0 0
      = (if ([0, 255, 65, 0, 0, 0, 0, 0, 0, 0, 0, 0, 0, 0, 0, 0] : List Nat).getD 0 0 = 0
        then 255 else 0)
    ∧ (SimdCharPlatformCommon.toArray (SimdCharSse2PlatformSpecific.equal
        [0, 255, 65, 0, 0, 0, 0, 0, 0, 0, 0, 0, 0, 0, 0, 0] 255)).getD 2 0
      = (if ([0, 255, 65, 0, 0, 0, 0, 0, 0, 0, 0, 0, 0, 0, 0, 0] : List Nat).getD 2 0 = 255
        then 255 else 0) :=
  ⟨equal_toArray_correct [0, 255, 65, 0, 0, 0, 0, 0, 0, 0, 0, 0, 0, 0, 0, 0] 0
      (by decide) 0 (by omega),
   equal_toArray_correct [0, 255, 65, 0, 0, 0, 0, 0, 0, 0, 0, 0, 0, 0, 0, 0] 255
      (by decide) 2 (by omega)⟩

/-- C8 counterexample: in the buffer "AAAABCAAAAAAAAAA" the byte 'B' sits
at lane index 4, so lane 5 of equal(load(buffer), 'B') is the all-zeros
pattern, not the all-ones "true" pattern the claim asserts for it. -/
theorem scenario_lane5_not_true :
    ¬ (SimdCharSse2PlatformSpecific.equal
        (SimdCharSse2PlatformSpecific.loadu scenarioMem) 66).getD 5 0 = 255 := by
  decide

/-- C8 amended: for the buffer "AAAABCAAAAAAAAAA", equal(load(buffer), 'B')
has exactly lane index 4 true; movemask of that logical vector has exactly
one set bit-group, at lane position 4; any of it with ignore-none is true;
and any of it with ignore-extrema{first = 6, last = 0} is false. -/
theorem scenario_end_to_end :
    SimdCharSse2PlatformSpecific.equal (SimdCharSse2PlatformSpecific.loadu scenarioMem) 66
      = [0, 0, 0, 0, 255, 0, 0, 0, 0, 0, 0, 0, 0, 0, 0, 0]
    ∧ SimdCharPlatformCommon.movemask 1
        (SimdCharSse2PlatformSpecific.equal
          (SimdCharSse2PlatformSpecific.loadu scenarioMem) 66) = 2 ^ 4
    ∧ SimdCharSse2PlatformSpecific.any
        (SimdCharSse2PlatformSpecific.equal
          (SimdCharSse2PlatformSpecific.loadu scenarioMem) 66) = true
    ∧ SimdCharSse2Platform.anyExtrema
        (SimdCharSse2PlatformSpecific.equal
          (SimdCharSse2PlatformSpecific.loadu scenarioMem) 66) 6 0 = false := by
  refine ⟨by decide, by decide, by decide, by decide⟩

/-! Bit-level machinery for the compact-mask claims. -/

lemma bitGroup_testBit (bpe m i t : Nat) :
    (bitGroup bpe m i).testBit t = (decide (t < bpe) && m.testBit (i * bpe + t)) := by
  simp [bitGroup, Nat.testBit_mod_two_pow, Nat.testBit_shiftRight]

lemma setLowerNBits_of_le (w n : Nat) (hw : w ≤ 64) (hn : n ≤ w) :
    SimdCharPlatformCommon.setLowerNBits w n = 2 ^ n - 1 := by
  unfold SimdCharPlatformCommon.setLowerNBits
  by_cases h : w = 64 ∧ n = 64
  · rw [if_pos h, h.1, h.2]
  · rw [if_neg h]
    have hn64 : n < 64 := by omega
    have hs : (1 <<< n) = 2 ^ n := by rw [Nat.shiftLeft_eq, one_mul]
    have h0 : 0 < (2 : Nat) ^ n := Nat.pow_pos (by omega)
    have h1 : (2 : Nat) ^ n < 2 ^ 64 := Nat.pow_lt_pow_right (by omega) hn64
    have h2 : (2 : Nat) ^ n ≤ 2 ^ w := Nat.pow_le_pow_right (by omega) hn
    rw [hs, Nat.mod_eq_of_lt h1, Nat.mod_eq_of_lt (by omega)]

lemma and_two_pow_sub_one_of_lt (x n : Nat) (h : x < 2 ^ n) : x &&& (2 ^ n - 1) = x := by
  apply Nat.eq_of_testBit_eq
  intro i
  rw [Nat.testBit_and, Nat.testBit_two_pow_sub_one]
  by_cases hi : i < n
  · simp [hi]
  · have hx : x < 2 ^ i := lt_of_lt_of_le h (Nat.pow_le_pow_right (by omega) (by omega))
    simp [hi, Nat.testBit_lt_two_pow hx]

lemma clear_extrema_testBit (w bpe kC first last m : Nat) (hw : w ≤ 64)
    (hf : first * bpe ≤ w) (hl : (kC - last) * bpe ≤ w) (j : Nat) :
    (SimdCharPlatformCommon.clear w bpe kC m (Ignore.extrema first last)).testBit j
      = (m.testBit j && decide (first * bpe ≤ j)
          && decide (j < (kC - last) * bpe) && decide (j < w)) := by
  show (m &&& ((2 ^ w - 1) ^^^ SimdCharPlatformCommon.setLowerNBits w (first * bpe))
      &&& SimdCharPlatformCommon.setLowerNBits w ((kC - last) * bpe)).testBit j = _
  rw [setLowerNBits_of_le w (first * bpe) hw hf,
    setLowerNBits_of_le w ((kC - last) * bpe) hw hl,
    Nat.testBit_and, Nat.testBit_and, Nat.testBit_xor,
    Nat.testBit_two_pow_sub_one, Nat.testBit_two_pow_sub_one, Nat.testBit_two_pow_sub_one]
  by_cases h1 : j < w
  · by_cases h2 : j < first * bpe
    · have h3 : ¬ first * bpe ≤ j := by omega
      simp [h1, h2, h3]
    · have h3 : first * bpe ≤ j := by omega
      simp [h1, h2, h3]
  · have h2 : ¬ j < first * bpe := by omega
    have h3 : ¬ j < (kC - last) * bpe := by omega
    simp [h1, h2, h3]

lemma movemaskExtraction_head_lt (bpe b : Nat) :
    (if b ≠ 0 then 2 ^ bpe - 1 else 0) < 2 ^ bpe := by
  have h : 0 < (2 : Nat) ^ bpe := Nat.pow_pos (by omega)
  split <;> omega

lemma movemaskExtraction_lt (bpe : Nat) :
    ∀ log : List Nat, movemaskExtraction bpe log < 2 ^ (log.length * bpe) := by
  intro log
  induction log with
  | nil => simp [movemaskExtraction]
  | cons b rest ih =>
      show (if b ≠ 0 then 2 ^ bpe - 1 else 0) + 2 ^ bpe * movemaskExtraction bpe rest
          < 2 ^ ((b :: rest).length * bpe)
      have e1 : (b :: rest).length * bpe = bpe + rest.length * bpe := by
        simp [List.length_cons]
        ring
      rw [e1, pow_add]
      have hhd := movemaskExtraction_head_lt bpe b
      have h2 : (if b ≠ 0 then 2 ^ bpe - 1 else 0) + 2 ^ bpe * movemaskExtraction bpe rest
          < 2 ^ bpe * (movemaskExtraction bpe rest + 1) := by
        have e2 : 2 ^ bpe * (movemaskExtraction bpe rest + 1)
            = 2 ^ bpe * movemaskExtraction bpe rest + 2 ^ bpe := by ring
        omega
      exact lt_of_lt_of_le h2
        (Nat.mul_le_mul_left _ (by omega : movemaskExtraction bpe rest + 1 ≤ 2 ^ (rest.length * bpe)))

lemma movemaskExtraction_bitGroup (bpe : Nat) :
    ∀ (log : List Nat) (i : Nat), i < log.length →
      bitGroup bpe (movemaskExtraction bpe log) i
        = if log.getD i 0 ≠ 0 then 2 ^ bpe - 1 else 0 := by
  intro log
  induction log with
  | nil => intro i hi; simp at hi
  | cons b rest ih =>
      intro i hi
      cases i with
      | zero =>
          unfold bitGroup
          rw [Nat.zero_mul, Nat.shiftRight_zero]
          show ((if b ≠ 0 then 2 ^ bpe - 1 else 0) + 2 ^ bpe * movemaskExtraction bpe rest)
              % 2 ^ bpe = _
          rw [Nat.add_mul_mod_self_left, Nat.mod_eq_of_lt (movemaskExtraction_head_lt bpe b)]
          simp
      | succ i2 =>
          have hstep : movemaskExtraction bpe (b :: rest) >>> bpe
              = movemaskExtraction bpe rest := by
            rw [Nat.shiftRight_eq_div_pow]
            show ((if b ≠ 0 then 2 ^ bpe - 1 else 0) + 2 ^ bpe * movemaskExtraction bpe rest)
                / 2 ^ bpe = _
            rw [Nat.add_mul_div_left _ _ (Nat.pow_pos (by omega)),
              Nat.div_eq_of_lt (movemaskExtraction_head_lt bpe b), Nat.zero_add]
          have e1 : (i2 + 1) * bpe = bpe + i2 * bpe := by ring
          unfold bitGroup
          rw [e1, Nat.shiftRight_add, hstep]
          have hr := ih i2 (by simpa using hi)
          unfold bitGroup at hr
          rw [hr]
          simp

lemma movemaskExtraction_eq_zero_iff (bpe : Nat) (hbpe : 1 ≤ bpe) :
    ∀ log : List Nat, (movemaskExtraction bpe log = 0 ↔ ∀ b ∈ log, b = 0) := by
  intro log
  induction log with
  | nil => simp [movemaskExtraction]
  | cons b rest ih =>
      show ((if b ≠ 0 then 2 ^ bpe - 1 else 0) + 2 ^ bpe * movemaskExtraction bpe rest = 0 ↔ _)
      have h2 : 2 ≤ (2 : Nat) ^ bpe := by
        calc (2 : Nat) = 2 ^ 1 := by norm_num
        _ ≤ 2 ^ bpe := Nat.pow_le_pow_right (by omega) hbpe
      constructor
      · intro h
        have hb : b = 0 := by
          by_contra hb
          rw [if_pos hb] at h
          omega
        have hm : 2 ^ bpe * movemaskExtraction bpe rest = 0 := by omega
        have hr : movemaskExtraction bpe rest = 0 := by
          rcases Nat.mul_eq_zero.mp hm with h1 | h1
          · exact absurd h1 (Nat.pow_pos (a := 2) (by omega)).ne'
          · exact h1
        intro c hc
        rcases List.mem_cons.mp hc with h1 | h1
        · rw [h1]; exact hb
        · exact ih.mp hr c h1
      · intro h
        have hb : b = 0 := h b (List.mem_cons_self b rest)
        have hr : movemaskExtraction bpe rest = 0 :=
          ih.mpr (fun c hc => h c (List.mem_cons_of_mem b hc))
        rw [hr, hb]
        simp

lemma vmaxv_eq_zero_iff : ∀ log : List Nat, (vmaxv log = 0 ↔ ∀ b ∈ log, b = 0) := by
  intro log
  induction log with
  | nil => simp [vmaxv]
  | cons b rest ih =>
      show (Nat.max b (vmaxv rest) = 0 ↔ _)
      rw [Nat.max_eq_zero_iff, ih]
      constructor
      · rintro ⟨hb, hr⟩ c hc
        rcases List.mem_cons.mp hc with h1 | h1
        · rw [h1]; exact hb
        · exact hr c h1
      · intro h
        exact ⟨h b (List.mem_cons_self b rest), fun c hc => h c (List.mem_cons_of_mem b hc)⟩

lemma exists_set_lane_of_not_all_zero (log : List Nat)
    (hlog : ∀ b ∈ log, b = 0 ∨ b = 255) :
    ¬ (∀ b ∈ log, b = 0) ↔ ∃ b ∈ log, b = 255 := by
  constructor
  · intro h
    push_neg at h
    obtain ⟨b, hb, hb0⟩ := h
    rcases hlog b hb with h0 | h255
    · exact absurd h0 hb0
    · exact ⟨b, hb, h255⟩
  · rintro ⟨b, hb, h255⟩ hall
    have := hall b hb
    omega

/-- C1: clear with ignore-extrema{first, last} (first + last ≤ kCardinal)
zeroes the bit-groups of the first `first` lanes and the last `last`
lanes of the compact mask and leaves every other lane's bit-group equal to
the corresponding bit-group of the input mask. -/
theorem clear_extrema_bitGroups (w bpe kC first last m : Nat)
    (hw : w ≤ 64) (hfit : kC * bpe ≤ w) (hfl : first + last ≤ kC) :
    ∀ i, i < kC →
      bitGroup bpe (SimdCharPlatformCommon.clear w bpe kC m (Ignore.extrema first last)) i
        = if i < first ∨ kC - last ≤ i then 0 else bitGroup bpe m i := by
  intro i hi
  have hfw : first * bpe ≤ w := le_trans (Nat.mul_le_mul_right bpe (by omega)) hfit
  have hlw : (kC - last) * bpe ≤ w := le_trans (Nat.mul_le_mul_right bpe (by omega)) hfit
  apply Nat.eq_of_testBit_eq
  intro t
  rw [bitGroup_testBit, clear_extrema_testBit w bpe kC first last m hw hfw hlw]
  by_cases ht : t < bpe
  · have hip1 : (i + 1) * bpe = i * bpe + bpe := by ring
    have hjk : i * bpe + t < kC * bpe := by
      have := Nat.mul_le_mul_right bpe (show i + 1 ≤ kC by omega)
      omega
    by_cases hc1 : i < first
    · have hlt : i * bpe + t < first * bpe := by
        have := Nat.mul_le_mul_right bpe (show i + 1 ≤ first by omega)
        omega
      simp [ht, hc1, show ¬ first * bpe ≤ i * bpe + t by omega, Nat.zero_testBit]
    · by_cases hc2 : kC - last ≤ i
      · have hge : ¬ (i * bpe + t < (kC - last) * bpe) := by
          have := Nat.mul_le_mul_right bpe hc2
          omega
        simp [ht, hc1, hc2, hge, Nat.zero_testBit]
      · have d1 : first * bpe ≤ i * bpe + t := by
          have := Nat.mul_le_mul_right bpe (show first ≤ i by omega)
          omega
        have d2 : i * bpe + t < (kC - last) * bpe := by
          have := Nat.mul_le_mul_right bpe (show i + 1 ≤ kC - last by omega)
          omega
        simp [ht, hc1, hc2, d1, d2, show i * bpe + t < w by omega, bitGroup_testBit]
  · by_cases hc : i < first ∨ kC - last ≤ i
    · rw [if_pos hc, Nat.zero_testBit]
      simp [ht]
    · rw [if_neg hc, bitGroup_testBit]
      simp [ht]

/-- C1 witness: kCardinal = 16, one mask bit per lane, mask 0xFFFF,
ignore-extrema{6, 0}: lane 3 is in the cleared leading region. -/
theorem clear_extrema_bitGroups_witness :
    bitGroup 1 (SimdCharPlatformCommon.clear 32 1 16 65535 (Ignore.extrema 6 0)) 3
      = (if 3 < 6 ∨ 16 - 0 ≤ 3 then 0 else bitGroup 1 65535 3) :=
  clear_extrema_bitGroups 32 1 16 6 0 65535 (by omega) (by omega) (by omega) 3 (by omega)

/-- C7: any with ignore-none is true exactly when some lane of the logical
vector is true (all-ones), and in particular is false on the all-false
vector, on each backend (SSE2 and AVX2 via the movemask nonzero test, NEON
via the horizontal maximum). -/
theorem any_ignore_none_correct (log : List Nat) (hlog : ∀ b ∈ log, b = 0 ∨ b = 255) :
    (SimdCharSse2PlatformSpecific.any log = true ↔ ∃ b ∈ log, b = 255)
    ∧ (SimdCharAvx2PlatformSpecific.any log = true ↔ ∃ b ∈ log, b = 255)
    ∧ (SimdCharAarch64PlatformSpecific.any log = true ↔ ∃ b ∈ log, b = 255) := by
  have hmm : (movemaskExtraction 1 log ≠ 0) ↔ ∃ b ∈ log, b = 255 := by
    rw [Ne, movemaskExtraction_eq_zero_iff 1 (by omega) log]
    exact exists_set_lane_of_not_all_zero log hlog
  have hvm : (vmaxv log ≠ 0) ↔ ∃ b ∈ log, b = 255 := by
    rw [Ne, vmaxv_eq_zero_iff log]
    exact exists_set_lane_of_not_all_zero log hlog
  refine ⟨?_, ?_, ?_⟩ <;>
    simp [SimdCharSse2PlatformSpecific.any, SimdCharAvx2PlatformSpecific.any,
      SimdCharAarch64PlatformSpecific.any, hmm, hvm]

/-- C7 witness: a logical vector with one true lane, on all three
backends. -/
theorem any_ignore_none_correct_witness :
    (SimdCharSse2PlatformSpecific.any
        [0, 0, 255, 0, 0, 0, 0, 0, 0, 0, 0, 0, 0, 0, 0, 0] = true
      ↔ ∃ b ∈ ([0, 0, 255, 0, 0, 0, 0, 0, 0, 0, 0, 0, 0, 0, 0, 0] : List Nat), b = 255)
    ∧ (SimdCharAvx2PlatformSpecific.any
        [0, 0, 255, 0, 0, 0, 0, 0, 0, 0, 0, 0, 0, 0, 0, 0] = true
      ↔ ∃ b ∈ ([0, 0, 255, 0, 0, 0, 0, 0, 0, 0, 0, 0, 0, 0, 0, 0] : List Nat), b = 255)
    ∧ (SimdCharAarch64PlatformSpecific.any
        [0, 0, 255, 0, 0, 0, 0, 0, 0, 0, 0, 0, 0, 0, 0, 0] = true
      ↔ ∃ b ∈ ([0, 0, 255, 0, 0, 0, 0, 0, 0, 0, 0, 0, 0, 0, 0, 0] : List Nat), b = 255) :=
  any_ignore_none_correct [0, 0, 255, 0, 0, 0, 0, 0, 0, 0, 0, 0, 0, 0, 0, 0] (by decide)

/-- C3: any with ignore-extrema{first, last} (first + last ≤ kCardinal) is
true exactly when some lane i with first ≤ i < kCardinal - last is true in
the logical vector, and it equals the nonzero test of
clear(movemask(log), ignore-extrema{first, last}). -/
theorem any_extrema_iff (w bpe kC first last : Nat) (log : List Nat)
    (hw : w ≤ 64) (hbpe : 1 ≤ bpe) (hfit : kC * bpe ≤ w)
    (hlen : log.length = kC) (hfl : first + last ≤ kC)
    (hlog : ∀ b ∈ log, b = 0 ∨ b = 255) :
    (SimdCharPlatformCommon.anyExtrema w bpe kC log first last = true
      ↔ ∃ i, first ≤ i ∧ i < kC - last ∧ log.getD i 0 = 255)
    ∧ SimdCharPlatformCommon.anyExtrema w bpe kC log first last
      = decide (SimdCharPlatformCommon.clear w bpe kC
          (SimdCharPlatformCommon.movemask bpe log) (Ignore.extrema first last) ≠ 0) := by
  refine ⟨?_, rfl⟩
  unfold SimdCharPlatformCommon.anyExtrema SimdCharPlatformCommon.movemask
  simp only [decide_eq_true_eq]
  have hbpe0 : 0 < bpe := by omega
  have hfw : first * bpe ≤ w := le_trans (Nat.mul_le_mul_right bpe (by omega)) hfit
  have hlw : (kC - last) * bpe ≤ w := le_trans (Nat.mul_le_mul_right bpe (by omega)) hfit
  constructor
  · intro hne
    have hex : ∃ j, (SimdCharPlatformCommon.clear w bpe kC (movemaskExtraction bpe log)
        (Ignore.extrema first last)).testBit j = true := by
      by_contra hno
      push_neg at hno
      exact hne (Nat.eq_of_testBit_eq fun j => by simpa using hno j)
    obtain ⟨j, hj⟩ := hex
    rw [clear_extrema_testBit w bpe kC first last _ hw hfw hlw j] at hj
    simp only [Bool.and_eq_true, decide_eq_true_eq] at hj
    obtain ⟨⟨⟨hmj, hfj⟩, hlj⟩, hwj⟩ := hj
    have e1 : bpe * (j / bpe) + j % bpe = j := Nat.div_add_mod j bpe
    have e2 : j % bpe < bpe := Nat.mod_lt j hbpe0
    have hdiv : j / bpe < kC - last := (Nat.div_lt_iff_lt_mul hbpe0).mpr hlj
    refine ⟨j / bpe, ?_, hdiv, ?_⟩
    · by_contra hc
      push_neg at hc
      have e3 : bpe * (j / bpe + 1) ≤ bpe * first := Nat.mul_le_mul_left bpe (by omega)
      have e4 : bpe * (j / bpe + 1) = bpe * (j / bpe) + bpe := by ring
      have e5 : bpe * first = first * bpe := by ring
      omega
    · have hilen : j / bpe < log.length := by omega
      have hbg := movemaskExtraction_bitGroup bpe log (j / bpe) hilen
      have hbt : (bitGroup bpe (movemaskExtraction bpe log) (j / bpe)).testBit (j % bpe)
          = true := by
        rw [bitGroup_testBit]
        have e6 : j / bpe * bpe = bpe * (j / bpe) := Nat.mul_comm _ _
        rw [show j / bpe * bpe + j % bpe = j by omega]
        simp [e2, hmj]
      rw [hbg] at hbt
      by_cases hz : log.getD (j / bpe) 0 ≠ 0
      · have hmem : log.getD (j / bpe) 0 ∈ log := by
          rw [List.getD_eq_getElem _ _ hilen]
          exact List.getElem_mem hilen
        rcases hlog _ hmem with h0 | h255
        · exact absurd h0 hz
        · exact h255
      · rw [if_neg hz] at hbt
        simp [Nat.zero_testBit] at hbt
  · rintro ⟨i, hfi, hil, h255⟩
    have hilen : i < log.length := by omega
    have hbg := movemaskExtraction_bitGroup bpe log i hilen
    rw [if_pos (by rw [h255]; omega)] at hbg
    have hbit : (movemaskExtraction bpe log).testBit (i * bpe) = true := by
      have ht0 := bitGroup_testBit bpe (movemaskExtraction bpe log) i 0
      rw [hbg, Nat.testBit_two_pow_sub_one, Nat.add_zero] at ht0
      simpa [hbpe0] using ht0.symm
    intro h0
    have hct : (SimdCharPlatformCommon.clear w bpe kC (movemaskExtraction bpe log)
        (Ignore.extrema first last)).testBit (i * bpe) = true := by
      rw [clear_extrema_testBit w bpe kC first last _ hw hfw hlw]
      have c1 : first * bpe ≤ i * bpe := Nat.mul_le_mul_right bpe hfi
      have c2 : i * bpe < (kC - last) * bpe := by
        have := Nat.mul_le_mul_right bpe (show i + 1 ≤ kC - last by omega)
        have e : (i + 1) * bpe = i * bpe + bpe := by ring
        omega
      have c3 : i * bpe < w := by
        have := Nat.mul_le_mul_right bpe (show i + 1 ≤ kC by omega)
        have e : (i + 1) * bpe = i * bpe + bpe := by ring
        omega
      simp [hbit, c1, c2, c3]
    rw [h0] at hct
    simp [Nat.zero_testBit] at hct

/-- C3 witness: kCardinal = 16, one mask bit per lane, a logical vector
whose only true lane is 6, boundary descriptor ignore-extrema{6, 0}. -/
theorem any_extrema_iff_witness :
    (SimdCharPlatformCommon.anyExtrema 32 1 16
        [0, 0, 0, 0, 0, 0, 255, 0, 0, 0, 0, 0, 0, 0, 0, 0] 6 0 = true
      ↔ ∃ i, 6 ≤ i ∧ i < 16 - 0
          ∧ ([0, 0, 0, 0, 0, 0, 255, 0, 0, 0, 0, 0, 0, 0, 0, 0] : List Nat).getD i 0 = 255)
    ∧ SimdCharPlatformCommon.anyExtrema 32 1 16
        [0, 0, 0, 0, 0, 0, 255, 0, 0, 0, 0, 0, 0, 0, 0, 0] 6 0
      = decide (SimdCharPlatformCommon.clear 32 1 16
          (SimdCharPlatformCommon.movemask 1
            [0, 0, 0, 0, 0, 0, 255, 0, 0, 0, 0, 0, 0, 0, 0, 0])
          (Ignore.extrema 6 0) ≠ 0) :=
  any_extrema_iff 32 1 16 6 0 [0, 0, 0, 0, 0, 0, 255, 0, 0, 0, 0, 0, 0, 0, 0, 0]
    (by omega) (by omega) (by omega) (by decide) (by omega) (by decide)

/-- C9: clear never sets a bit that its input mask does not have, for any
boundary counts first ≤ kCardinal and last ≤ kCardinal (including the
unchecked case first + last > kCardinal, where clear is still only an
intersection); consequently any with ignore-extrema true implies any with
ignore-none true. -/
theorem clear_monotone (w bpe kC first last m : Nat)
    (hfirst : first ≤ kC) (hlast : last ≤ kC) :
    (∀ j, (SimdCharPlatformCommon.clear w bpe kC m (Ignore.extrema first last)).testBit j = true
        → m.testBit j = true)
    ∧ ∀ log : List Nat,
        SimdCharSse2Platform.anyExtrema log first last = true
          → SimdCharSse2PlatformSpecific.any log = true := by
  constructor
  · intro j hj
    have hdef : SimdCharPlatformCommon.clear w bpe kC m (Ignore.extrema first last)
        = m &&& ((2 ^ w - 1) ^^^ SimdCharPlatformCommon.setLowerNBits w (first * bpe))
            &&& SimdCharPlatformCommon.setLowerNBits w ((kC - last) * bpe) := rfl
    rw [hdef, Nat.testBit_and, Nat.testBit_and] at hj
    simp only [Bool.and_eq_true] at hj
    exact hj.1.1
  · intro log h
    unfold SimdCharSse2Platform.anyExtrema SimdCharPlatformCommon.anyExtrema at h
    unfold SimdCharSse2PlatformSpecific.any
    simp only [decide_eq_true_eq] at h ⊢
    intro h0
    apply h
    show SimdCharPlatformCommon.clear 32 1 16 (SimdCharPlatformCommon.movemask 1 log)
        (Ignore.extrema first last) = 0
    have hz : SimdCharPlatformCommon.movemask 1 log = 0 := h0
    rw [hz]
    show (0 : Nat) &&& _ &&& _ = 0
    rw [Nat.zero_and, Nat.zero_and]

/-- C9 witness: first = 10, last = 10 exceeds kCardinal = 16 (the
unchecked case) yet both monotonicity statements hold. -/
theorem clear_monotone_witness :
    (∀ j, (SimdCharPlatformCommon.clear 32 1 16 77 (Ignore.extrema 10 10)).testBit j = true
        → (77 : Nat).testBit j = true)
    ∧ ∀ log : List Nat,
        SimdCharSse2Platform.anyExtrema log 10 10 = true
          → SimdCharSse2PlatformSpecific.any log = true :=
  clear_monotone 32 1 16 10 10 77 (by omega) (by omega)

lemma clear_zero_extrema_eq (w bpe kC m : Nat) (hw : w ≤ 64) (hfit : kC * bpe ≤ w)
    (hm : m < 2 ^ (kC * bpe)) :
    SimdCharPlatformCommon.clear w bpe kC m (Ignore.extrema 0 0) = m := by
  show m &&& ((2 ^ w - 1) ^^^ SimdCharPlatformCommon.setLowerNBits w (0 * bpe))
      &&& SimdCharPlatformCommon.setLowerNBits w ((kC - 0) * bpe) = m
  rw [Nat.zero_mul, Nat.sub_zero,
    setLowerNBits_of_le w 0 hw (by omega), setLowerNBits_of_le w (kC * bpe) hw hfit,
    pow_zero, show (1 : Nat) - 1 = 0 from rfl, Nat.xor_zero]
  have hmw : m < 2 ^ w := lt_of_lt_of_le hm (Nat.pow_le_pow_right (by omega) hfit)
  rw [and_two_pow_sub_one_of_lt m w hmw, and_two_pow_sub_one_of_lt m (kC * bpe) hm]

/-- C10: the zero boundary descriptor behaves exactly like ignore-none:
clear with ignore-extrema{0, 0} is the identity on every compact mask
(every mask below 2 ^ (kCardinal * kMmaskBitsPerElement), including when
that product fills the whole mask type), clear with ignore-none is the
identity, and any with ignore-extrema{0, 0} agrees with any with
ignore-none. -/
theorem clear_zero_extrema_identity (w bpe kC m : Nat)
    (hw : w ≤ 64) (hfit : kC * bpe ≤ w) (hm : m < 2 ^ (kC * bpe)) :
    SimdCharPlatformCommon.clear w bpe kC m (Ignore.extrema 0 0) = m
    ∧ SimdCharPlatformCommon.clear w bpe kC m Ignore.none = m
    ∧ ∀ log : List Nat, log.length = 16 →
        SimdCharSse2Platform.anyExtrema log 0 0 = SimdCharSse2PlatformSpecific.any log := by
  refine ⟨clear_zero_extrema_eq w bpe kC m hw hfit hm, rfl, ?_⟩
  intro log hlen
  unfold SimdCharSse2Platform.anyExtrema SimdCharPlatformCommon.anyExtrema
    SimdCharSse2PlatformSpecific.any
  have hmm : movemaskExtraction 1 log < 2 ^ (16 * 1) := by
    have hlt := movemaskExtraction_lt 1 log
    rw [hlen] at hlt
    exact hlt
  rw [show SimdCharPlatformCommon.movemask 1 log = movemaskExtraction 1 log from rfl,
    clear_zero_extrema_eq 32 1 16 (movemaskExtraction 1 log) (by omega) (by omega) hmm]

/-- C10 witness: the NEON-style configuration where
kCardinal * kMmaskBitsPerElement = 64 fills the whole 64-bit mask type. -/
theorem clear_zero_extrema_identity_witness :
    SimdCharPlatformCommon.clear 64 4 16 57005 (Ignore.extrema 0 0) = 57005
    ∧ SimdCharPlatformCommon.clear 64 4 16 57005 Ignore.none = 57005
    ∧ ∀ log : List Nat, log.length = 16 →
        SimdCharSse2Platform.anyExtrema log 0 0 = SimdCharSse2PlatformSpecific.any log :=
  clear_zero_extrema_identity 64 4 16 57005 (by omega) (by omega) (by norm_num)
